import Mathlib

/-!
Shallow embedding of the stream library of
`Functional-information-hiding-in-TypeScript` (files `src/streams.ts` and
`src/typed-streams.js`), together with proofs and refutations of the
specification's claims about it.

Modelling conventions:

* A JS value of TypeScript type `a | undefined` is modelled as `Option α`
  (`none` is `undefined`).
* JS truthiness of element values is a parameter `tr : α → Bool`; for JS
  numbers `0` is falsy (`numTruthy`).  Truthiness of an `a | undefined`
  value is `jsTruthy tr`, with `undefined` falsy.
* In `streams.ts` every `Enumerate()` call allocates a fresh
  `fields = { index: 0 }` record, so an enumerator is pure state passing:
  a stream is its initial enumerator state plus the `MoveNext`/`Reset`
  transition functions (`IStream`).
* The `while` loops of `ToArray` and of `Where`'s `MoveNext` may diverge
  (e.g. on `Infinite`), so every `MoveNext` takes a fuel argument and
  returns `none` when the fuel is insufficient; combinators whose source
  has no loop ignore the fuel.
* In `typed-streams.js` the `fields = { index: 0 }` record is created once
  per *stream* (outside `Enumerate`), so all enumerators of one stream
  alias the same index.  That version is modelled separately (`TStream`)
  with the shared cell threaded through the stream value itself.
* JS arrays are modelled as `List`; `result.push(x)` is `acc ++ [x]`,
  `x[i]` is `x[i]?` (out-of-range access yields `undefined`).
-/

namespace Streams

/-- Truthiness of a JS `a | undefined` value, given truthiness `tr` of the
element values themselves; `undefined` is falsy. -/
def jsTruthy (tr : α → Bool) : Option α → Bool
  | none => false
  | some x => tr x

/-- Truthiness of a JS number: `0` is falsy, every other integer truthy
(`NaN` is not modelled). -/
def numTruthy (n : Int) : Bool := n != 0

/-- An `IStream<a>` of `streams.ts` whose enumerator state has type `σ`.
`Enumerate()` returns a fresh enumerator, i.e. the initial state `init`
together with the transition functions `MoveNext` and `Reset`.
`MoveNext`'s extra `Nat` argument is fuel for the loop inside `Where`;
the overall result `none` means the fuel ran out (the source loop would
still be running). -/
structure IStream (σ α : Type) where
  init : σ
  MoveNext : Nat → σ → Option (Option α × σ)
  Reset : σ → σ

/-- One `MoveNext()` step of the enumerator created by
`FromArray(x).Enumerate()`:
`x.length <= fields.index ? undefined : x[fields.index++]`. -/
def fromArrayMoveNext (x : List α) (i : Nat) : Option α × Nat :=
  if x.length ≤ i then (none, i) else (x[i]?, i + 1)

/-- `FromArray` of `streams.ts`: `fields = { index: 0 }` is allocated inside
`Enumerate`, so every enumerator starts at index `0`.  `Reset` sets the
index back to `0`.  No loop, so the fuel is ignored. -/
def FromArray (x : List α) : IStream Nat α where
  init := 0
  MoveNext := fun _ i => some (fromArrayMoveNext x i)
  Reset := fun _ => 0

/-- `Singleton` of `streams.ts`: `FromArray([x])`. -/
def Singleton (x : α) : IStream Nat α := FromArray [x]

/-- `Infinite` of `streams.ts`: `MoveNext` is `getItem(fields.index++)`,
which always yields an element value, never `undefined`. -/
def Infinite (getItem : Nat → α) : IStream Nat α where
  init := 0
  MoveNext := fun _ i => some (some (getItem i), i + 1)
  Reset := fun _ => 0

/-- Body of `Map`'s `MoveNext`: `current ? f(current) : undefined`.
A falsy `current` — `undefined`, but also a falsy *element* — maps to
`undefined`. -/
def mapCurrent (tr : α → Bool) (f : α → β) (c : Option α) : Option β :=
  if jsTruthy tr c then Option.map f c else none

/-- `Map` of `streams.ts`: the enumerator wraps the upstream enumerator
(same state), `Reset` delegates, and `MoveNext` pulls once and applies
`current ? f(current) : undefined`. -/
def Map (tr : α → Bool) (s : IStream σ α) (f : α → β) : IStream σ β where
  init := s.init
  MoveNext := fun fuel st =>
    match s.MoveNext fuel st with
    | none => none
    | some (c, st') => some (mapCurrent tr f c, st')
  Reset := s.Reset

/-- Loop guard of `Where`'s `MoveNext`: `current && !predicate(current)`. -/
def keepLooping (tr p : α → Bool) : Option α → Bool
  | none => false
  | some x => tr x && !p x

/-- The `while (current && !predicate(current)) current = enumerator.MoveNext()`
loop of `Where`, with fuel: each unit of fuel pays for one guard check, and
`none` means the fuel ran out before the loop finished. -/
def whereLoop (tr p : α → Bool) (mv : Nat → σ → Option (Option α × σ)) :
    Nat → Option α × σ → Option (Option α × σ)
  | 0, _ => none
  | fuel + 1, (c, st) =>
    if keepLooping tr p c then
      match mv fuel st with
      | none => none
      | some cs => whereLoop tr p mv fuel cs
    else
      some (c, st)

/-- `Where` of `streams.ts`: `MoveNext` pulls once from the upstream
enumerator and then runs the skipping loop; `Reset` delegates. -/
def Where (tr : α → Bool) (s : IStream σ α) (p : α → Bool) : IStream σ α where
  init := s.init
  MoveNext := fun fuel st =>
    match s.MoveNext fuel st with
    | none => none
    | some cs => whereLoop tr p s.MoveNext fuel cs
  Reset := s.Reset

/-- The `while (current) { result.push(current); current = e.MoveNext() }`
loop of `ToArray`, with fuel (one unit per guard check).  Note the guard is
truthiness of `current`, so a falsy element stops the drain. -/
def toArrayLoop (tr : α → Bool) (mv : Nat → σ → Option (Option α × σ)) :
    Nat → List α → Option α × σ → Option (List α)
  | 0, _, _ => none
  | fuel + 1, acc, (c, st) =>
    if jsTruthy tr c then
      match mv fuel st with
      | none => none
      | some cs =>
        match c with
        | some x => toArrayLoop tr mv fuel (acc ++ [x]) cs
        | none => some acc
    else
      some acc

/-- `ToArray` of `streams.ts`: produce one enumerator, pull once, then run
the drain loop. -/
def ToArray (tr : α → Bool) (s : IStream σ α) (fuel : Nat) : Option (List α) :=
  match s.MoveNext fuel s.init with
  | none => none
  | some cs => toArrayLoop tr s.MoveNext fuel [] cs

/-- The `ToArray` method of the `methods()` record of `streams.ts`:
`function (this) { return ToArray(this) }`. -/
def methodsToArray (tr : α → Bool) (this : IStream σ α) (fuel : Nat) :
    Option (List α) :=
  ToArray tr this fuel

/-- The `Where` method of the `methods()` record of `streams.ts`:
`function (this, predicate) { return Where(this, predicate) }`. -/
def methodsWhere (tr : α → Bool) (this : IStream σ α) (p : α → Bool) :
    IStream σ α :=
  Where tr this p

/-- The `Map` method of the `methods()` record of `streams.ts`:
`function (this, f) { return Map(this, f) }`. -/
def methodsMap (tr : α → Bool) (this : IStream σ α) (f : α → β) :
    IStream σ β :=
  Map tr this f

/-- Observes `k` successive `MoveNext()` calls on an enumerator, collecting
the returned `a | undefined` values (each call gets `fuel` fuel). -/
def moveNextTrace (mv : Nat → σ → Option (Option α × σ)) (fuel : Nat) :
    Nat → σ → Option (List (Option α) × σ)
  | 0, st => some ([], st)
  | k + 1, st =>
    match mv fuel st with
    | none => none
    | some (c, st') =>
      match moveNextTrace mv fuel k st' with
      | none => none
      | some (l, stEnd) => some (c :: l, stEnd)

/-! Model of `src/typed-streams.js`.  There, `FromArray`, `Infinite` (and the
article's `streams.js`) create `fields = { index: 0 }` *outside* `Enumerate`,
so every enumerator of one stream aliases the same index cell.  The shared
cell is modelled by threading the stream's state value through the
operations that mutate it. -/

/-- A JS property value occurring in the `typed-streams.js` example data
(strings and numbers suffice). -/
inductive JSVal where
  | str : String → JSVal
  | num : Int → JSVal
deriving DecidableEq, Repr

/-- A JS object: an ordered list of property/value bindings; a property may
hold `undefined` (`none`). -/
def JSObj : Type := List (String × Option JSVal)

instance : DecidableEq JSObj := inferInstanceAs (DecidableEq (List (String × Option JSVal)))

/-- Property read `o[k]`: the bound value, or `undefined` when the property
is absent. -/
def jsGet (o : JSObj) (k : String) : Option JSVal :=
  match o with
  | [] => none
  | (k', v) :: rest => if k' == k then v else jsGet rest k

/-- Property write `o[k] = v`: overwrite an existing binding in place, or
append a new one at the end (JS insertion order). -/
def jsSet (o : JSObj) (k : String) (v : Option JSVal) : JSObj :=
  match o with
  | [] => [(k, v)]
  | (k', v') :: rest => if k' == k then (k, v) :: rest else (k', v') :: jsSet rest k v

/-- JS objects are always truthy. -/
def objTruthy : JSObj → Bool := fun _ => true

/-- A stream of `typed-streams.js`: the mutable `fields` record lives in the
stream itself, so the stream value carries the current `state`; every
enumerator returned by `Enumerate` reads and writes that shared state. -/
structure TStream (σ α : Type) where
  state : σ
  MoveNext : σ → Option α × σ
  Reset : σ → σ

/-- `FromArray` of `typed-streams.js`: `fields = { index: 0 }` is created
once per stream, before `Enumerate`. -/
def tjsFromArray (x : List α) : TStream Nat α where
  state := 0
  MoveNext := fromArrayMoveNext x
  Reset := fun _ => 0

/-- `Select` of `typed-streams.js`: pull once; on `undefined` return
`undefined` (note: an explicit `current == undefined` check, not
truthiness); otherwise copy exactly the requested keys, in order, into a
fresh object. -/
def tjsSelect (keys : List String) (s : TStream σ JSObj) : TStream σ JSObj where
  state := s.state
  MoveNext := fun st =>
    match s.MoveNext st with
    | (none, st') => (none, st')
    | (some cur, st') => (some (keys.foldl (fun r k => jsSet r k (jsGet cur k)) []), st')
  Reset := s.Reset

/-- Drain loop of `ToArray` in `typed-streams.js` (`while (current)`), with
fuel; also returns the final shared enumerator state. -/
def tjsToArrayLoop (tr : α → Bool) (mv : σ → Option α × σ) :
    Nat → List α → Option α × σ → Option (List α × σ)
  | 0, _, _ => none
  | fuel + 1, acc, (c, st) =>
    if jsTruthy tr c then
      match c with
      | some x => tjsToArrayLoop tr mv fuel (acc ++ [x]) (mv st)
      | none => some (acc, st)
    else
      some (acc, st)

/-- `ToArray` of `typed-streams.js`: drains via an enumerator that shares the
stream's state cell, so the result also contains the stream as it is left
after the call (same transition functions, advanced state). -/
def tjsToArray (tr : α → Bool) (s : TStream σ α) (fuel : Nat) :
    Option (List α × TStream σ α) :=
  match tjsToArrayLoop tr s.MoveNext fuel [] (s.MoveNext s.state) with
  | none => none
  | some (res, st') => some (res, ⟨st', s.MoveNext, s.Reset⟩)

/-- The seven example records of `typed-streams.js` (`people`). -/
def peopleRecords : List JSObj :=
  [ [("name", some (JSVal.str "John")), ("surname", some (JSVal.str "Doe")), ("age", some (JSVal.num 27))],
    [("name", some (JSVal.str "Jane")), ("surname", some (JSVal.str "Red")), ("age", some (JSVal.num 11))],
    [("name", some (JSVal.str "Jill")), ("surname", some (JSVal.str "Miller")), ("age", some (JSVal.num 39))],
    [("name", some (JSVal.str "Rick")), ("surname", some (JSVal.str "Muller")), ("age", some (JSVal.num 72))],
    [("name", some (JSVal.str "Ross")), ("surname", some (JSVal.str "Franken")), ("age", some (JSVal.num 57))],
    [("name", some (JSVal.str "Rose")), ("surname", some (JSVal.str "Rossi")), ("age", some (JSVal.num 35))],
    [("name", some (JSVal.str "Gwen")), ("surname", some (JSVal.str "Antonio")), ("age", some (JSVal.num 21))] ]

/-- The `people` computation of `typed-streams.js`:
`FromArray(records).Select("name", "surname").ToArray()` (drained with the
given fuel). -/
def people (fuel : Nat) : Option (List JSObj) :=
  (tjsToArray objTruthy (tjsSelect ["name", "surname"] (tjsFromArray peopleRecords)) fuel).map
    Prod.fst

/-- Mathematical description of what `Where`'s skipping loop computes over a
`FromArray` enumerator positioned at index `i` (assuming truthy elements):
the first element at index `≥ i` satisfying `p` together with the index just
past it, or the exhausted marker. -/
def firstMatch (xs : List α) (p : α → Bool) (i : Nat) : Option α × Nat :=
  match h : xs[i]? with
  | none => (none, i)
  | some x => if p x then (some x, i + 1) else firstMatch xs p (i + 1)
termination_by xs.length - i
decreasing_by
  have hlt : i < xs.length := by
    rcases Nat.lt_or_ge i xs.length with h' | h'
    · exact h'
    · rw [List.getElem?_eq_none h'] at h
      cases h
  omega

/-! Helper lemmas. -/

theorem fromArrayMoveNext_of_le {x : List α} {i : Nat} (h : x.length ≤ i) :
    fromArrayMoveNext x i = (none, i) := by
  simp [fromArrayMoveNext, h]

theorem fromArrayMoveNext_of_lt {x : List α} {i : Nat} (h : i < x.length) :
    fromArrayMoveNext x i = (some x[i], i + 1) := by
  simp [fromArrayMoveNext, Nat.not_le.mpr h, List.getElem?_eq_getElem h]

theorem moveNextTrace_fromArray_exhausted {xs : List α} {i : Nat}
    (hle : xs.length ≤ i) (fuel : Nat) :
    ∀ k, moveNextTrace (FromArray xs).MoveNext fuel k i =
      some (List.replicate k none, i) := by
  intro k
  induction k with
  | zero => simp [moveNextTrace]
  | succ k ih =>
      simp only [FromArray] at ih ⊢
      simp [moveNextTrace, fromArrayMoveNext_of_le hle, ih, List.replicate_succ]

theorem moveNextTrace_infinite (g : Nat → α) (fuel : Nat) :
    ∀ k i, moveNextTrace (Infinite g).MoveNext fuel k i =
      some ((List.range k).map (fun j => some (g (i + j))), i + k) := by
  intro k
  induction k with
  | zero => intro i; simp [moveNextTrace]
  | succ k ih =>
      intro i
      have hfun : (fun j => some (g (i + 1 + j))) = (fun j => some (g (i + (j + 1)))) := by
        funext j
        rw [Nat.add_assoc, Nat.add_comm 1 j]
      simp only [Infinite] at ih ⊢
      simp [moveNextTrace, ih (i + 1), List.range_succ_eq_map,
        List.map_map, Function.comp_def, hfun, Nat.add_assoc, Nat.add_comm 1 k]
      intro a _
      rw [Nat.add_comm 1 a]

theorem firstMatch_of_getElem_none {xs : List α} {p : α → Bool} {i : Nat}
    (h : xs[i]? = none) : firstMatch xs p i = (none, i) := by
  unfold firstMatch
  split
  · rfl
  · rename_i x h'
    rw [h] at h'
    cases h'

theorem firstMatch_of_p {xs : List α} {p : α → Bool} {i : Nat} {x : α}
    (h : xs[i]? = some x) (hp : p x = true) :
    firstMatch xs p i = (some x, i + 1) := by
  unfold firstMatch
  split
  · rename_i h'
    rw [h] at h'
    cases h'
  · rename_i y h'
    rw [h] at h'
    cases h'
    simp [hp]

theorem firstMatch_of_not_p {xs : List α} {p : α → Bool} {i : Nat} {x : α}
    (h : xs[i]? = some x) (hp : p x = false) :
    firstMatch xs p i = firstMatch xs p (i + 1) := by
  conv_lhs => rw [firstMatch]
  split
  · rename_i h'
    rw [h] at h'
    cases h'
  · rename_i y h'
    rw [h] at h'
    cases h'
    simp [hp]

theorem firstMatch_none_spec (xs : List α) (p : α → Bool) (i : Nat) :
    ∀ j, firstMatch xs p i = (none, j) → (xs.drop i).filter p = [] := by
  induction i using firstMatch.induct xs p with
  | case1 i h =>
      intro j _
      simp [List.drop_eq_nil_of_le (List.getElem?_eq_none_iff.mp h)]
  | case2 i x h hp =>
      intro j hfm
      rw [firstMatch_of_p h hp] at hfm
      simp at hfm
  | case3 i x h hp ih =>
      intro j hfm
      have hp' : p x = false := by simpa using hp
      rw [firstMatch_of_not_p h hp'] at hfm
      have hlt : i < xs.length := by
        rcases Nat.lt_or_ge i xs.length with h' | h'
        · exact h'
        · rw [List.getElem?_eq_none h'] at h
          cases h
      have hx : xs[i] = x := by
        rw [List.getElem?_eq_getElem hlt] at h
        cases h
        rfl
      rw [List.drop_eq_getElem_cons hlt, List.filter_cons, hx]
      simp [hp', ih j hfm]

theorem firstMatch_some_spec (xs : List α) (p : α → Bool) (i : Nat) :
    ∀ x j, firstMatch xs p i = (some x, j) →
      p x = true ∧ x ∈ xs ∧ i < j ∧ i < xs.length ∧
        (xs.drop i).filter p = x :: (xs.drop j).filter p := by
  induction i using firstMatch.induct xs p with
  | case1 i h =>
      intro x j hfm
      rw [firstMatch_of_getElem_none h] at hfm
      simp at hfm
  | case2 i y h hp =>
      intro x j hfm
      rw [firstMatch_of_p h hp] at hfm
      injection hfm with h1 h2
      injection h1 with h1
      subst h1
      subst h2
      have hlt : i < xs.length := by
        rcases Nat.lt_or_ge i xs.length with h' | h'
        · exact h'
        · rw [List.getElem?_eq_none h'] at h
          cases h
      have hx : xs[i] = y := by
        rw [List.getElem?_eq_getElem hlt] at h
        cases h
        rfl
      refine ⟨hp, hx ▸ List.getElem_mem hlt, Nat.lt_succ_self i, hlt, ?_⟩
      rw [List.drop_eq_getElem_cons hlt, List.filter_cons, hx]
      simp [hp]
  | case3 i y h hp ih =>
      intro x j hfm
      have hp' : p y = false := by simpa using hp
      rw [firstMatch_of_not_p h hp'] at hfm
      obtain ⟨hpx, hmem, hij, _, hfil⟩ := ih x j hfm
      have hlt : i < xs.length := by
        rcases Nat.lt_or_ge i xs.length with h' | h'
        · exact h'
        · rw [List.getElem?_eq_none h'] at h
          cases h
      have hx : xs[i] = y := by
        rw [List.getElem?_eq_getElem hlt] at h
        cases h
        rfl
      refine ⟨hpx, hmem, by omega, hlt, ?_⟩
      rw [List.drop_eq_getElem_cons hlt, List.filter_cons, hx]
      simp [hp', hfil]

theorem whereLoop_sound (tr p : α → Bool) (mv : Nat → σ → Option (Option α × σ)) :
    ∀ (fuel : Nat) (cs : Option α × σ) (x : α) (st' : σ),
      whereLoop tr p mv fuel cs = some (some x, st') → tr x = true → p x = true := by
  intro fuel
  induction fuel with
  | zero =>
      intro cs x st' h
      simp [whereLoop] at h
  | succ fuel ih =>
      rintro ⟨c, st⟩ x st' h htr
      rw [whereLoop] at h
      by_cases hk : keepLooping tr p c = true
      · rw [if_pos hk] at h
        cases hmv : mv fuel st with
        | none => rw [hmv] at h; cases h
        | some cs' => rw [hmv] at h; exact ih cs' x st' h htr
      · rw [if_neg hk] at h
        injection h with h
        injection h with h1 h2
        subst h1
        simp [keepLooping, htr] at hk
        exact hk

theorem whereLoop_fromArray (tr p : α → Bool) (xs : List α)
    (hall : ∀ x ∈ xs, tr x = true) :
    ∀ (fuel i : Nat), xs.length - i < fuel →
      whereLoop tr p (FromArray xs).MoveNext fuel (fromArrayMoveNext xs i) =
        some (firstMatch xs p i) := by
  intro fuel
  induction fuel with
  | zero =>
      intro i h
      exact absurd h (Nat.not_lt_zero _)
  | succ fuel ih =>
      intro i h
      by_cases hle : xs.length ≤ i
      · rw [fromArrayMoveNext_of_le hle,
          firstMatch_of_getElem_none (List.getElem?_eq_none hle)]
        simp [whereLoop, keepLooping]
      · have hlt : i < xs.length := Nat.lt_of_not_le hle
        rw [fromArrayMoveNext_of_lt hlt]
        have htr : tr xs[i] = true := hall _ (List.getElem_mem hlt)
        by_cases hp : p xs[i] = true
        · rw [firstMatch_of_p (List.getElem?_eq_getElem hlt) hp]
          simp [whereLoop, keepLooping, htr, hp]
        · have hp' : p xs[i] = false := by simpa using hp
          rw [firstMatch_of_not_p (List.getElem?_eq_getElem hlt) hp']
          have hrec := ih (i + 1) (by omega)
          simp only [FromArray] at hrec ⊢
          simp [whereLoop, keepLooping, htr, hp', hrec]

theorem toArrayLoop_fromArray (tr : α → Bool) (xs : List α)
    (hall : ∀ x ∈ xs, tr x = true) :
    ∀ (fuel i : Nat) (acc : List α), xs.length - i < fuel →
      toArrayLoop tr (FromArray xs).MoveNext fuel acc (fromArrayMoveNext xs i) =
        some (acc ++ xs.drop i) := by
  intro fuel
  induction fuel with
  | zero =>
      intro i acc h
      exact absurd h (Nat.not_lt_zero _)
  | succ fuel ih =>
      intro i acc h
      by_cases hle : xs.length ≤ i
      · rw [fromArrayMoveNext_of_le hle]
        simp [toArrayLoop, jsTruthy, List.drop_eq_nil_of_le hle]
      · have hlt : i < xs.length := Nat.lt_of_not_le hle
        rw [fromArrayMoveNext_of_lt hlt]
        have htr : tr xs[i] = true := hall _ (List.getElem_mem hlt)
        have hrec := ih (i + 1) (acc ++ [xs[i]]) (by omega)
        simp only [FromArray] at hrec ⊢
        rw [List.drop_eq_getElem_cons hlt]
        simp [toArrayLoop, jsTruthy, htr, hrec]

theorem toArrayLoop_map_fromArray (tra : α → Bool) (trb : β → Bool)
    (xs : List α) (f : α → β)
    (hall : ∀ x ∈ xs, tra x = true) (himg : ∀ x ∈ xs, trb (f x) = true) :
    ∀ (fuel i : Nat) (acc : List β), xs.length - i < fuel →
      toArrayLoop trb (Map tra (FromArray xs) f).MoveNext fuel acc
        (mapCurrent tra f (fromArrayMoveNext xs i).1, (fromArrayMoveNext xs i).2) =
        some (acc ++ (xs.drop i).map f) := by
  intro fuel
  induction fuel with
  | zero =>
      intro i acc h
      exact absurd h (Nat.not_lt_zero _)
  | succ fuel ih =>
      intro i acc h
      by_cases hle : xs.length ≤ i
      · rw [fromArrayMoveNext_of_le hle]
        simp [toArrayLoop, mapCurrent, jsTruthy, List.drop_eq_nil_of_le hle]
      · have hlt : i < xs.length := Nat.lt_of_not_le hle
        have htra : tra xs[i] = true := hall _ (List.getElem_mem hlt)
        have htrb : trb (f xs[i]) = true := himg _ (List.getElem_mem hlt)
        have hrec := ih (i + 1) (acc ++ [f xs[i]]) (by omega)
        have hmc : mapCurrent tra f (some xs[i]) = some (f xs[i]) := by
          simp [mapCurrent, jsTruthy, htra]
        have hg : jsTruthy trb (some (f xs[i])) = true := htrb
        simp only [Map, FromArray] at hrec ⊢
        rw [fromArrayMoveNext_of_lt hlt, List.drop_eq_getElem_cons hlt]
        simp [toArrayLoop, hmc, hg, hrec]
        rw [List.drop_eq_getElem_cons (show i < (List.map f xs).length by simpa using hlt)]
        simp

theorem toArrayLoop_where_fromArray (tr p : α → Bool) (xs : List α)
    (hall : ∀ x ∈ xs, tr x = true) :
    ∀ (fuel i : Nat) (acc : List α), xs.length - i < fuel →
      toArrayLoop tr (Where tr (FromArray xs) p).MoveNext fuel acc
        (firstMatch xs p i) = some (acc ++ (xs.drop i).filter p) := by
  intro fuel
  induction fuel with
  | zero =>
      intro i acc h
      exact absurd h (Nat.not_lt_zero _)
  | succ fuel ih =>
      intro i acc h
      rcases hfm : firstMatch xs p i with ⟨c, j⟩
      cases c with
      | none =>
          have hfil := firstMatch_none_spec xs p i j hfm
          simp [toArrayLoop, jsTruthy, hfil]
      | some x =>
          obtain ⟨hpx, hmem, hij, hilen, hfil⟩ := firstMatch_some_spec xs p i x j hfm
          have htr := hall _ hmem
          have hb : xs.length - j < fuel := by omega
          have hW : (Where tr (FromArray xs) p).MoveNext fuel j =
              some (firstMatch xs p j) := by
            have hwl := whereLoop_fromArray tr p xs hall fuel j hb
            simp only [Where, FromArray] at hwl ⊢
            simpa using hwl
          have hrec := ih j (acc ++ [x]) hb
          simp only [Where, FromArray] at hW hrec ⊢
          rw [hfil]
          simp [toArrayLoop, jsTruthy, htr, hW, hrec]

theorem toArray_fromArray_of_truthy (tr : α → Bool) (xs : List α)
    (hall : ∀ x ∈ xs, tr x = true) (fuel : Nat) (hf : xs.length < fuel) :
    ToArray tr (FromArray xs) fuel = some xs := by
  have h := toArrayLoop_fromArray tr xs hall fuel 0 [] (by omega)
  simp only [ToArray, FromArray] at h ⊢
  simpa using h

theorem toArray_map_fromArray_of_truthy (tra : α → Bool) (trb : β → Bool)
    (xs : List α) (f : α → β)
    (hall : ∀ x ∈ xs, tra x = true) (himg : ∀ x ∈ xs, trb (f x) = true)
    (fuel : Nat) (hf : xs.length < fuel) :
    ToArray trb (Map tra (FromArray xs) f) fuel = some (xs.map f) := by
  have h := toArrayLoop_map_fromArray tra trb xs f hall himg fuel 0 [] (by omega)
  simp only [ToArray, Map, FromArray] at h ⊢
  simpa using h

theorem toArray_where_fromArray_of_truthy (tr p : α → Bool) (xs : List α)
    (hall : ∀ x ∈ xs, tr x = true) (fuel : Nat) (hf : xs.length < fuel) :
    ToArray tr (Where tr (FromArray xs) p) fuel = some (xs.filter p) := by
  have hwl := whereLoop_fromArray tr p xs hall fuel 0 (by omega)
  have h := toArrayLoop_where_fromArray tr p xs hall fuel 0 [] (by omega)
  simp only [ToArray, Where, FromArray] at hwl h ⊢
  rw [hwl]
  simpa using h

/-! Claim theorems. -/

/-- C1: the claim states `ToArray(FromArray(xs))` returns `xs` for every
`xs`, with no precondition on the element values.  The code violates this:
`ToArray`'s drain loop is `while (current)`, a truthiness test, so the falsy
element `0` is mistaken for end-of-sequence and `FromArray([0])` drains to
`[]`, not `[0]`.  (Fuel `2` lets every loop of this run finish; more fuel
gives the same value.) -/
theorem C1_toArray_fromArray_falsy_eval :
    ToArray numTruthy (FromArray ([0] : List Int)) 2 = some [] ∧
      ([] : List Int) ≠ [0] := by
  constructor
  · decide
  · decide

/-- C2: the claim states `Enumerate` yields independent enumerators, so two
`ToArray` calls on one stream return equal arrays.  `streams.ts` satisfies
this (fresh `fields` per `Enumerate()`), but `typed-streams.js` creates
`fields = { index: 0 }` once per stream, outside `Enumerate`, so the second
`ToArray` of `FromArray([1,2,3])` starts at the shared index left at `3` and
returns `[]`, not `[1,2,3]`. -/
theorem C2_typedStreams_sharedState_eval :
    (tjsToArray numTruthy (tjsFromArray ([1, 2, 3] : List Int)) 4).map Prod.fst =
      some [1, 2, 3] ∧
    ((tjsToArray numTruthy (tjsFromArray ([1, 2, 3] : List Int)) 4).bind
      (fun rs => (tjsToArray numTruthy rs.2 4).map Prod.fst)) = some [] ∧
    some ([] : List Int) ≠ some [1, 2, 3] := by
  refine ⟨by decide, by decide, by decide⟩

/-- C3: the claim states exhaustion is detected only through the dedicated
`undefined` marker, so a stream containing `0` is still enumerated in full.
In the code every consumer tests truthiness instead (`while (current)` in
`ToArray`, `current ? f(current) : undefined` in `Map`,
`current && !predicate(current)` in `Where`), so the falsy element `0` of
`FromArray([0, 1])` acts as end-of-sequence in all three. -/
theorem C3_truthiness_not_marker_eval :
    ToArray numTruthy (FromArray ([0, 1] : List Int)) 3 = some [] ∧
    ToArray numTruthy (Map numTruthy (FromArray ([0, 1] : List Int)) (fun x => x + 1)) 3 =
      some [] ∧
    ToArray numTruthy (Where numTruthy (FromArray ([0, 1] : List Int)) (fun _ => true)) 3 =
      some [] := by
  refine ⟨by decide, by decide, by decide⟩

/-- C4: the claim states `ToArray(Where(FromArray(xs), p))` equals the
`p`-filtered subsequence of `xs` for every `xs` and `p`.  For `xs = [0]` and
the constantly-true predicate the filter is `[0]`, but the code yields `[]`:
`Where` returns the falsy element `0` un-checked and `ToArray`'s truthiness
guard then treats it as exhaustion. -/
theorem C4_where_falsy_eval :
    ToArray numTruthy (Where numTruthy (FromArray ([0] : List Int)) (fun _ => true)) 3 =
      some [] ∧
    List.filter (fun _ => true) ([0] : List Int) = [0] := by
  refine ⟨by decide, by decide⟩

/-- C5: the claim states `ToArray(Map(FromArray(xs), f))` equals `xs.map f`
for every `xs` and every `f`.  For `xs = [1]` and `f = const 0` the map is
`[0]`, but the code yields `[]`: `Map` produces the falsy value `0` and
`ToArray`'s truthiness guard stops (and a falsy `f`-image would equally be
turned into `undefined` by `Map` itself for any later consumer). -/
theorem C5_map_falsy_eval :
    ToArray numTruthy (Map numTruthy (FromArray ([1] : List Int)) (fun _ => (0 : Int))) 3 =
      some [] ∧
    List.map (fun _ => (0 : Int)) ([1] : List Int) = [0] := by
  refine ⟨by decide, by decide⟩

/-- C6: `FromArray(people).Select("name", "surname").ToArray()` on the seven
example records yields exactly seven records, each with exactly the `name`
and `surname` properties, values unchanged and `age` absent.  Fuel `8`
suffices for the eight loop-guard checks of the drain. -/
theorem C6_select_people :
    people 8 = some
      [ [("name", some (JSVal.str "John")), ("surname", some (JSVal.str "Doe"))],
        [("name", some (JSVal.str "Jane")), ("surname", some (JSVal.str "Red"))],
        [("name", some (JSVal.str "Jill")), ("surname", some (JSVal.str "Miller"))],
        [("name", some (JSVal.str "Rick")), ("surname", some (JSVal.str "Muller"))],
        [("name", some (JSVal.str "Ross")), ("surname", some (JSVal.str "Franken"))],
        [("name", some (JSVal.str "Rose")), ("surname", some (JSVal.str "Rossi"))],
        [("name", some (JSVal.str "Gwen")), ("surname", some (JSVal.str "Antonio"))] ] := by
  rfl

/-- C7: on a fresh enumerator of `Infinite(g)` the first `k` `MoveNext()`
calls return exactly `g(0), …, g(k-1)` — every returned value is
`some (g i)`, never the `none` exhaustion marker — and the index afterwards
is `k`.  This holds for every generator and every `k` (and any fuel, since
`Infinite` has no loop). -/
theorem C7_infinite_first_k {α : Type} (g : Nat → α) (k fuel : Nat) :
    moveNextTrace (Infinite g).MoveNext fuel k 0 =
      some ((List.range k).map (fun i => some (g i)), k) := by
  have h := moveNextTrace_infinite g fuel k 0
  simpa using h

/-- C8: if a `MoveNext()` of a `FromArray` enumerator returns the exhausted
marker, the index is left unchanged, and every number of further
`MoveNext()` calls keeps returning the marker with the index still
unchanged — no element reappears and no out-of-bounds access occurs (the
transition function is total). -/
theorem C8_fromArray_no_resurrection {α : Type} (xs : List α) (i j fuel k : Nat)
    (h : (FromArray xs).MoveNext fuel i = some (none, j)) :
    j = i ∧ moveNextTrace (FromArray xs).MoveNext fuel k i =
      some (List.replicate k none, i) := by
  have hfm : fromArrayMoveNext xs i = (none, j) := by
    simpa [FromArray] using h
  have hle : xs.length ≤ i := by
    by_contra hc
    have hlt : i < xs.length := Nat.lt_of_not_le hc
    rw [fromArrayMoveNext_of_lt hlt] at hfm
    injection hfm with h1 h2
    cases h1
  have hj : j = i := by
    rw [fromArrayMoveNext_of_le hle] at hfm
    injection hfm with h1 h2
    exact h2.symm
  exact ⟨hj, moveNextTrace_fromArray_exhausted hle fuel k⟩

/-- Witness for C8 at `xs = [5]`, exhausted index `1`, three further calls. -/
theorem C8_witness :
    (FromArray ([5] : List Int)).MoveNext 1 1 = some (none, 1) ∧
    (1 = 1 ∧ moveNextTrace (FromArray ([5] : List Int)).MoveNext 1 3 1 =
      some (List.replicate 3 none, 1)) :=
  ⟨by decide, C8_fromArray_no_resurrection [5] 1 1 1 3 (by decide)⟩

/-- C9: the fluent methods installed by `methods()` are definitionally the
direct function calls — `s.Where(p)` is `Where(s, p)`, `s.Map(f)` is
`Map(s, f)` and `s.ToArray()` is `ToArray(s)` — so every observation of the
two forms is equal. -/
theorem C9_fluent_methods_delegate {σ α β : Type} (tr : α → Bool)
    (s : IStream σ α) (p : α → Bool) (f : α → β) (fuel : Nat) :
    methodsWhere tr s p = Where tr s p ∧
      methodsMap tr s f = Map tr s f ∧
      methodsToArray tr s fuel = ToArray tr s fuel :=
  ⟨rfl, rfl, rfl⟩

/-- C10 counterexample: the claim states every non-marker value emitted by
`Where`'s `MoveNext` satisfies the predicate, regardless of element values.
Over `FromArray([0])` with the constantly-false predicate, `MoveNext`
returns `some 0` — not the marker — even though the predicate rejects `0`:
the loop guard `current && !predicate(current)` exits on the falsy element
before consulting the predicate. -/
theorem C10_counterexample :
    (Where numTruthy (FromArray ([0] : List Int)) (fun _ => false)).MoveNext 2 0 =
      some (some 0, 1) ∧
    some (0 : Int) ≠ (none : Option Int) ∧
    (fun _ : Int => false) 0 = false := by
  refine ⟨by decide, by decide, rfl⟩

/-- C10 amended: every *truthy* value emitted by `Where`'s `MoveNext`
satisfies the predicate — for any upstream stream, any predicate, any fuel
and any enumerator state. -/
theorem C10_where_sound_truthy {σ α : Type} (tr : α → Bool) (s : IStream σ α)
    (p : α → Bool) (fuel : Nat) (st : σ) (x : α) (st' : σ)
    (h : (Where tr s p).MoveNext fuel st = some (some x, st'))
    (htr : tr x = true) : p x = true := by
  simp only [Where] at h
  cases hmv : s.MoveNext fuel st with
  | none => rw [hmv] at h; cases h
  | some cs => rw [hmv] at h; exact whereLoop_sound tr p s.MoveNext fuel cs x st' h htr

/-- Witness for the amended C10 at `FromArray([3])` with predicate `x == 3`. -/
theorem C10_witness :
    ((Where numTruthy (FromArray ([3] : List Int)) (fun x => x == 3)).MoveNext 2 0 =
      some (some 3, 1) ∧ numTruthy 3 = true) ∧
    (fun x : Int => x == 3) 3 = true :=
  ⟨⟨by decide, by decide⟩,
    C10_where_sound_truthy numTruthy (FromArray [3]) (fun x => x == 3) 2 0 3 1
      (by decide) (by decide)⟩

end Streams
